import Mathlib

/-!
# Verification of the notemancy-lsp document/link engine

Shallow embedding of the text-handling core of the `notemancy-lsp` language
server.  Strings are modelled as `List Char`; Rust byte offsets become
character offsets (every modelled function measures positions in the same
units on both sides, so the offset arithmetic is preserved).  Fallible Rust
slicing (`&s[..i]`, which panics when `i` is out of bounds) is modelled with
an outer `Option`: `none` is the panic.
-/

set_option maxHeartbeats 1000000

namespace NotemancyLsp

/-- Shorthand used in concrete statements: the character list of a string. -/
def sL (s : String) : List Char := s.toList

/-! ## Model of Rust `str::lines`

Rust `lines()` splits on `'\n'`; a line that was terminated by `'\n'`
additionally loses one trailing `'\r'`; a final line that is not
`'\n'`-terminated is kept verbatim, and a trailing `'\n'` produces no final
empty line. -/

/-- Drop a single trailing carriage return, as Rust `lines()` does to every
`'\n'`-terminated line. -/
def stripCR (l : List Char) : List Char :=
  if l.getLast? = some '\r' then l.dropLast else l

/-- Worker for `rustLines`: `cur` holds the reversed characters of the line
being accumulated. -/
def linesAux (cur : List Char) : List Char → List (List Char)
  | [] => [cur.reverse]
  | c :: rest =>
    if c = '\n' then
      match rest with
      | [] => [stripCR cur.reverse]
      | _ :: _ => stripCR cur.reverse :: linesAux [] rest
    else linesAux (c :: cur) rest

/-- Model of Rust `str::lines`. -/
def rustLines : List Char → List (List Char)
  | [] => []
  | c :: t => linesAux [] (c :: t)

/-! ## `position_to_offset` (src/handlers/hover.rs and definition.rs)

```rust
fn position_to_offset(content: &str, position: &Position) -> usize {
    let mut offset = 0;
    for (i, line) in content.lines().enumerate() {
        if i as u32 == position.line {
            offset += position.character as usize;
            break;
        } else {
            offset += line.len() + 1;
        }
    }
    offset
}
```
-/

/-- The loop of `position_to_offset`: `i` is the enumeration index, `off` the
accumulator. -/
def posToOffLoop : List (List Char) → Nat → Nat → Nat → Nat → Nat
  | [], _, _, _, off => off
  | l :: ls, i, line, ch, off =>
    if i = line then off + ch
    else posToOffLoop ls (i + 1) line ch (off + l.length + 1)

/-- `position_to_offset` from src/handlers/hover.rs (identical in
src/handlers/definition.rs). -/
def position_to_offset (content : List Char) (line ch : Nat) : Nat :=
  posToOffLoop (rustLines content) 0 line ch 0

/-! ## `compute_position` (src/symbol/markdown.rs, lines 41–49)

```rust
let compute_position = |offset: usize| -> Position {
    let line = content[..offset].matches('\n').count() as u32;
    let last_newline = content[..offset].rfind('\n').map(|i| i + 1).unwrap_or(0);
    let col = offset - last_newline;
    Position { line, character: col as u32 }
};
```
-/

/-- Index of the last `'\n'` in a character list (Rust `rfind('\n')`). -/
def rfindNL : List Char → Option Nat
  | [] => none
  | c :: rest =>
    match rfindNL rest with
    | some i => some (i + 1)
    | none => if c = '\n' then some 0 else none

/-- `compute_position` from src/symbol/markdown.rs: offset ↦ (line, column). -/
def compute_position (content : List Char) (offset : Nat) : Nat × Nat :=
  ((content.take offset).count '\n',
    offset - (match rfindNL (content.take offset) with | some i => i + 1 | none => 0))

/-! ### Recursion-friendly reformulations, proved equal to the source forms -/

/-- Break-free form of the `position_to_offset` loop. -/
def posToOff : List (List Char) → Nat → Nat → Nat
  | [], _, _ => 0
  | _ :: _, 0, ch => ch
  | l :: ls, n + 1, ch => l.length + 1 + posToOff ls n ch

/-- Structural form of `compute_position`. -/
def offToPos : List Char → Nat → Nat × Nat
  | _, 0 => (0, 0)
  | [], o => (0, o)
  | c :: t, o + 1 =>
    if c = '\n' then ((offToPos t o).1 + 1, (offToPos t o).2)
    else if (offToPos t o).1 = 0 then (0, (offToPos t o).2 + 1) else offToPos t o

theorem posToOffLoop_shift (ls : List (List Char)) :
    ∀ (n ch i off : Nat), posToOffLoop ls i (i + n) ch off = off + posToOff ls n ch := by
  induction ls with
  | nil => intro n ch i off; simp [posToOffLoop, posToOff]
  | cons l ls ih =>
    intro n ch i off
    cases n with
    | zero => simp [posToOffLoop, posToOff]
    | succ m =>
      have hne : i ≠ i + (m + 1) := by omega
      simp only [posToOffLoop, posToOff]
      rw [if_neg hne]
      have h2 : i + (m + 1) = (i + 1) + m := by omega
      rw [h2, ih m ch (i + 1) (off + l.length + 1)]
      omega

theorem position_to_offset_eq (content : List Char) (line ch : Nat) :
    position_to_offset content line ch = posToOff (rustLines content) line ch := by
  have h := posToOffLoop_shift (rustLines content) line ch 0 0
  simpa [position_to_offset] using h

theorem rfindNL_none_iff (l : List Char) : rfindNL l = none ↔ '\n' ∉ l := by
  induction l with
  | nil => simp [rfindNL]
  | cons c rest ih =>
    simp only [rfindNL]
    cases h : rfindNL rest with
    | some i =>
      have : '\n' ∈ rest := by
        by_contra hmem
        exact absurd h (by simp [ih.mpr hmem])
      simp [this]
    | none =>
      by_cases hc : c = '\n'
      · simp [hc, ih.mp h]
      · simp [hc, ih.mp h, Ne.symm hc]

theorem mem_of_rfindNL_some (l : List Char) (i : Nat) (h : rfindNL l = some i) :
    '\n' ∈ l := by
  by_contra hmem
  rw [(rfindNL_none_iff l).mpr hmem] at h
  exact absurd h (by simp)

theorem offToPos_eq_compute (t : List Char) :
    ∀ o, offToPos t o = compute_position t o := by
  induction t with
  | nil =>
    intro o
    cases o with
    | zero => simp [offToPos, compute_position, rfindNL]
    | succ m => simp [offToPos, compute_position, rfindNL]
  | cons c t ih =>
    intro o
    cases o with
    | zero => simp [offToPos, compute_position, rfindNL]
    | succ m =>
      simp only [offToPos, ih m, compute_position, List.take_succ_cons, rfindNL]
      cases hnl : rfindNL (t.take m) with
      | some i =>
        have hpos : 0 < (t.take m).count '\n' :=
          List.count_pos_iff.mpr (mem_of_rfindNL_some _ _ hnl)
        by_cases hc : c = '\n'
        · subst hc
          simp only [List.count_cons_self, if_pos rfl]
          rw [Prod.ext_iff]
          refine ⟨by simp, by simp⟩
        · have hne : (t.take m).count '\n' ≠ 0 := by omega
          simp only [if_neg hc, if_neg hne]
          rw [Prod.ext_iff]
          refine ⟨by simp [List.count_cons, Ne.symm hc], by simp⟩
      | none =>
        have hcount : (t.take m).count '\n' = 0 :=
          List.count_eq_zero.mpr ((rfindNL_none_iff _).mp hnl)
        by_cases hc : c = '\n'
        · subst hc
          simp only [List.count_cons_self, if_pos rfl, hcount]
          rw [Prod.ext_iff]
          refine ⟨by simp, by simp⟩
        · simp only [if_neg hc, hcount, if_pos rfl]
          rw [Prod.ext_iff]
          refine ⟨by simp [List.count_cons, Ne.symm hc, hcount], by simp⟩

/-! ### Structure of `rustLines` -/

theorem stripCR_of_not_mem (l : List Char) (h : '\r' ∉ l) : stripCR l = l := by
  have hne : l.getLast? ≠ some '\r' := by
    intro hl
    exact h (List.mem_of_getLast?_eq_some hl)
  simp [stripCR, hne]

theorem linesAux_ne_nil (cur : List Char) : ∀ t : List Char, linesAux cur t ≠ [] := by
  intro t
  induction t generalizing cur with
  | nil => simp [linesAux]
  | cons c rest ih =>
    by_cases hc : c = '\n'
    · subst hc
      cases rest with
      | nil => simp [linesAux]
      | cons d r => simp [linesAux]
    · simpa [linesAux, hc] using ih (c :: cur)

theorem rustLines_eq_nil_iff (t : List Char) : rustLines t = [] ↔ t = [] := by
  cases t with
  | nil => simp [rustLines]
  | cons c r =>
    simp only [rustLines]
    exact ⟨fun h => absurd h (linesAux_ne_nil [] (c :: r)), fun h => nomatch h⟩

theorem linesAux_shift (t : List Char) (ht : '\r' ∉ t) :
    ∀ cur : List Char, '\r' ∉ cur →
      linesAux cur t = (cur.reverse ++ (linesAux [] t).headD []) :: (linesAux [] t).tail := by
  induction t with
  | nil => intro cur _; simp [linesAux]
  | cons c rest ih =>
    intro cur hcur
    have hcr : c ≠ '\r' := fun h => ht (by simp [h])
    have hrest : '\r' ∉ rest := fun h => ht (List.mem_cons_of_mem _ h)
    have hcurrev : '\r' ∉ cur.reverse := by simpa using hcur
    have hstripnil : stripCR [] = [] := rfl
    by_cases hc : c = '\n'
    · subst hc
      cases rest with
      | nil => simp [linesAux, stripCR_of_not_mem _ hcurrev, hstripnil]
      | cons d rest' => simp [linesAux, stripCR_of_not_mem _ hcurrev, hstripnil]
    · have l1 : linesAux cur (c :: rest) = linesAux (c :: cur) rest := by
        simp [linesAux, hc]
      have l2 : linesAux [] (c :: rest) = linesAux [c] rest := by
        simp [linesAux, hc]
      have hccur : '\r' ∉ (c :: cur) := by
        intro hmem
        rcases List.mem_cons.mp hmem with h | h
        · exact hcr h.symm
        · exact hcur h
      have hcl : '\r' ∉ [c] := by
        intro hmem
        rcases List.mem_cons.mp hmem with h | h
        · exact hcr h.symm
        · simp at h
      rw [l1, l2, ih hrest (c :: cur) hccur, ih hrest [c] hcl]
      simp

theorem rustLines_newline (t : List Char) :
    rustLines ('\n' :: t) = [] :: rustLines t := by
  cases t with
  | nil => simp [rustLines, linesAux, stripCR]
  | cons d r => simp [rustLines, linesAux, stripCR]

theorem rustLines_cons_ne (c : Char) (t : List Char) (hc : c ≠ '\n')
    (ht : '\r' ∉ c :: t) :
    rustLines (c :: t) = (c :: (rustLines t).headD []) :: (rustLines t).tail := by
  have hcr : c ≠ '\r' := fun h => ht (by simp [h])
  have hrest : '\r' ∉ t := fun h => ht (List.mem_cons_of_mem _ h)
  cases t with
  | nil => simp [rustLines, linesAux, hc]
  | cons d r =>
    have l2 : rustLines (c :: d :: r) = linesAux [c] (d :: r) := by
      simp [rustLines, linesAux, hc]
    have hcl : '\r' ∉ [c] := by
      intro hmem
      rcases List.mem_cons.mp hmem with h | h
      · exact hcr h.symm
      · simp at h
    rw [l2, linesAux_shift (d :: r) hrest [c] hcl]
    simp [rustLines]

/-! ### The round-trip law (restricted to carriage-return-free text) -/

theorem roundtrip_aux (t : List Char) (ht : '\r' ∉ t) :
    ∀ o, o ≤ t.length →
      posToOff (rustLines t) (offToPos t o).1 (offToPos t o).2 = o := by
  induction t with
  | nil =>
    intro o ho
    have : o = 0 := Nat.le_zero.mp ho
    subst this
    simp [offToPos, rustLines, posToOff]
  | cons c t ih =>
    have hct : '\r' ∉ t := fun h => ht (List.mem_cons_of_mem _ h)
    intro o ho
    cases o with
    | zero =>
      cases hrl : rustLines (c :: t) with
      | nil => exact absurd hrl (by simpa [rustLines] using linesAux_ne_nil [] (c :: t))
      | cons x xs => simp [offToPos, hrl, posToOff]
    | succ m =>
      have hm : m ≤ t.length := by simpa using ho
      have hIH := ih hct m hm
      by_cases hc : c = '\n'
      · subst hc
        rw [rustLines_newline]
        have e1 : offToPos ('\n' :: t) (m + 1)
            = ((offToPos t m).1 + 1, (offToPos t m).2) := by simp [offToPos]
        rw [e1]
        simp only [posToOff, List.length_nil]
        omega
      · rw [rustLines_cons_ne c t hc ht]
        by_cases h1 : (offToPos t m).1 = 0
        · have e2 : offToPos (c :: t) (m + 1) = (0, (offToPos t m).2 + 1) := by
            simp [offToPos, hc, h1]
          rw [e2]
          have hval : (offToPos t m).2 = m := by
            cases hrt : rustLines t with
            | nil =>
              have htnil : t = [] := (rustLines_eq_nil_iff t).mp hrt
              subst htnil
              have hm0 : m = 0 := Nat.le_zero.mp hm
              subst hm0
              simp [offToPos]
            | cons y ys =>
              rw [hrt, h1] at hIH
              simpa [posToOff] using hIH
          simp [posToOff, hval]
        · obtain ⟨n, hn⟩ : ∃ n, (offToPos t m).1 = n + 1 :=
            ⟨(offToPos t m).1 - 1, by omega⟩
          have e3 : offToPos (c :: t) (m + 1) = offToPos t m := by
            simp [offToPos, hc, h1]
          rw [e3, hn]
          cases hrt : rustLines t with
          | nil =>
            exfalso
            have htnil : t = [] := (rustLines_eq_nil_iff t).mp hrt
            subst htnil
            have hm0 : m = 0 := Nat.le_zero.mp hm
            subst hm0
            simp [offToPos] at hn
          | cons y ys =>
            rw [hrt, hn] at hIH
            simp only [posToOff] at hIH ⊢
            simp only [List.headD_cons, List.tail_cons, List.length_cons]
            omega

/-- C1 (amended): for carriage-return-free text, `position_to_offset` is a
left inverse of `compute_position` on valid offsets `0 ≤ o ≤ len`. -/
theorem c1_roundtrip_no_cr (t : List Char) (ht : '\r' ∉ t) (o : Nat)
    (ho : o ≤ t.length) :
    position_to_offset t (compute_position t o).1 (compute_position t o).2 = o := by
  rw [position_to_offset_eq, ← offToPos_eq_compute]
  exact roundtrip_aux t ht o ho

/-- Witness for `c1_roundtrip_no_cr` at text `"ab\ncd"`, offset 4. -/
theorem c1_roundtrip_no_cr_witness :
    ('\r' ∉ sL "ab\ncd") ∧ (4 ≤ (sL "ab\ncd").length) ∧
      position_to_offset (sL "ab\ncd") (compute_position (sL "ab\ncd") 4).1
        (compute_position (sL "ab\ncd") 4).2 = 4 :=
  ⟨by decide, by decide, c1_roundtrip_no_cr (sL "ab\ncd") (by decide) 4 (by decide)⟩

/-- C1 counterexample: on the CRLF text `"a\r\nb"` the valid byte offset 3
(the `'b'`) maps to position (1,0), which `position_to_offset` maps back to
2, not 3 — Rust `lines()` strips the `"\r\n"` but `compute_position` counts
it, so the round-trip law fails on text containing carriage returns. -/
theorem c1_crlf_counterexample :
    (3 ≤ (sL "a\r\nb").length) ∧
      compute_position (sL "a\r\nb") 3 = (1, 0) ∧
      position_to_offset (sL "a\r\nb") (compute_position (sL "a\r\nb") 3).1
        (compute_position (sL "a\r\nb") 3).2 = 2 ∧ (2 : Nat) ≠ 3 :=
  ⟨by decide, by decide, by decide, by decide⟩

/-! ## Wiki-link extraction (src/handlers/hover.rs lines 24–37, identical in
src/handlers/definition.rs)

```rust
fn extract_wikilink_at_offset(content: &str, offset: usize) -> Option<String> {
    let start_index = content[..offset].rfind("[[")?;
    let end_index = content[offset..].find("]]")?;
    let end_index = offset + end_index;
    let link_text = content[start_index + 2..end_index].trim();
    let virtual_link = if let Some(pipe_index) = link_text.find('|') {
        link_text[..pipe_index].trim()
    } else {
        link_text
    };
    Some(virtual_link.to_string())
}
```

`&content[..offset]` and `&content[offset..]` panic when `offset` is out of
bounds; the outer `Option` in the model is that panic (`none` = panic).
`str::trim` is modelled with `Char.isWhitespace` (the inputs of interest are
ASCII, where the two notions agree). -/

/-- Rust `str::trim` on a character list. -/
def trimL (l : List Char) : List Char :=
  ((l.dropWhile Char.isWhitespace).reverse.dropWhile Char.isWhitespace).reverse

/-- Rust `str::find(pattern)` for a non-empty literal pattern: index of the
first occurrence. -/
def findSub (pat : List Char) : List Char → Option Nat
  | [] => if pat.isPrefixOf ([] : List Char) then some 0 else none
  | c :: t => if pat.isPrefixOf (c :: t) then some 0 else (findSub pat t).map (· + 1)

/-- Rust `str::rfind(pattern)`: index of the last occurrence. -/
def rfindSub (pat : List Char) : List Char → Option Nat
  | [] => if pat.isPrefixOf ([] : List Char) then some 0 else none
  | c :: t =>
    match rfindSub pat t with
    | some i => some (i + 1)
    | none => if pat.isPrefixOf (c :: t) then some 0 else none

/-- Rust `str::find('|')`: index of the first pipe character. -/
def findPipe : List Char → Option Nat
  | [] => none
  | c :: t => if c = '|' then some 0 else (findPipe t).map (· + 1)

/-- The slice `l[a..b]`. -/
def sliceL (l : List Char) (a b : Nat) : List Char := (l.take b).drop a

def dblOpen : List Char := ['[', '[']

def dblClose : List Char := [']', ']']

/-- `extract_wikilink_at_offset` from src/handlers/hover.rs. -/
def extract_wikilink_at_offset (content : List Char) (offset : Nat) :
    Option (Option (List Char)) :=
  if offset ≤ content.length then
    some (
      match rfindSub dblOpen (content.take offset) with
      | none => none
      | some si =>
        match findSub dblClose (content.drop offset) with
        | none => none
        | some rel =>
          match findPipe (trimL (sliceL content (si + 2) (offset + rel))) with
          | some pi =>
            some (trimL ((trimL (sliceL content (si + 2) (offset + rel))).take pi))
          | none => some (trimL (sliceL content (si + 2) (offset + rel))))
  else none

/-- Modelled from the spec: the full wiki-link decomposition of §4.3 — the
source only ever returns the target half of a link, so the alias half
(`substring after the first pipe, trimmed; absent otherwise`) is not code
under src/ and is reproduced here from the spec's words, alongside the
source's own target computation. -/
def specWikilinkDecomp (content : List Char) (offset : Nat) :
    Option (Option (List Char × Option (List Char))) :=
  if offset ≤ content.length then
    some (
      match rfindSub dblOpen (content.take offset) with
      | none => none
      | some si =>
        match findSub dblClose (content.drop offset) with
        | none => none
        | some rel =>
          match findPipe (trimL (sliceL content (si + 2) (offset + rel))) with
          | some pi =>
            some (trimL ((trimL (sliceL content (si + 2) (offset + rel))).take pi),
              some (trimL ((trimL (sliceL content (si + 2) (offset + rel))).drop (pi + 1))))
          | none => some (trimL (sliceL content (si + 2) (offset + rel)), none))
  else none

/-- C2 (code bug): the hover/definition text path is not total.  With the
two-character document `"ab"` and the LSP position line 0, character 5,
`position_to_offset` returns 5; the slice `&content[..5]` taken by
`extract_wikilink_at_offset` is out of bounds for a 2-byte string, so the
Rust code panics (modelled by the outer `none`), contradicting the spec's
"no operation panics; all text-parsing paths are total". -/
theorem c2_hover_path_panics :
    position_to_offset (sL "ab") 0 5 = 5 ∧ (sL "ab").length = 2 ∧
      extract_wikilink_at_offset (sL "ab") (position_to_offset (sL "ab") 0 5) = none :=
  ⟨by decide, by decide, by decide⟩

/-- C6: wiki-link decomposition at offset 2 (just inside the brackets):
`[[a/b.md | Title]]` gives target `a/b.md` (and, under the spec-modelled
decomposition, alias `Title`); `[[a/b.md]]` gives target `a/b.md` with no
alias; `[[unterminated` gives no link. -/
theorem c6_wikilink_decomposition :
    extract_wikilink_at_offset (sL "[[a/b.md | Title]]") 2 = some (some (sL "a/b.md")) ∧
      extract_wikilink_at_offset (sL "[[a/b.md]]") 2 = some (some (sL "a/b.md")) ∧
      extract_wikilink_at_offset (sL "[[unterminated") 2 = some none ∧
      specWikilinkDecomp (sL "[[a/b.md | Title]]") 2
        = some (some (sL "a/b.md", some (sL "Title"))) ∧
      specWikilinkDecomp (sL "[[a/b.md]]") 2 = some (some (sL "a/b.md", none)) ∧
      specWikilinkDecomp (sL "[[unterminated") 2 = some none :=
  ⟨by decide, by decide, by decide, by decide, by decide, by decide⟩

/-- C7 counterexample: on `"[[]]"` at offset 2 the extraction *succeeds* and
returns the empty target, refuting "`target` is never empty when a WikiLink
is successfully parsed". -/
theorem c7_empty_target_counterexample :
    extract_wikilink_at_offset (sL "[[]]") 2 = some (some ([] : List Char)) := by
  decide

theorem mem_trimL {x : Char} {l : List Char} (h : x ∈ trimL l) : x ∈ l := by
  unfold trimL at h
  rw [List.mem_reverse] at h
  have h1 := List.dropWhile_sublist (l := (l.dropWhile Char.isWhitespace).reverse)
    (p := Char.isWhitespace)
  have h2 : x ∈ (l.dropWhile Char.isWhitespace).reverse := h1.mem h
  rw [List.mem_reverse] at h2
  exact (List.dropWhile_sublist (l := l) (p := Char.isWhitespace)).mem h2

theorem findPipe_none {l : List Char} (h : findPipe l = none) : '|' ∉ l := by
  induction l with
  | nil => simp
  | cons c t ih =>
    simp only [findPipe] at h
    by_cases hc : c = '|'
    · simp [hc] at h
    · rw [if_neg hc] at h
      cases hf : findPipe t with
      | some i => rw [hf] at h; simp at h
      | none =>
        intro hmem
        rcases List.mem_cons.mp hmem with h' | h'
        · exact hc h'.symm
        · exact ih hf h'

theorem findPipe_take {l : List Char} {i : Nat} (h : findPipe l = some i) :
    '|' ∉ l.take i := by
  induction l generalizing i with
  | nil => simp
  | cons c t ih =>
    simp only [findPipe] at h
    by_cases hc : c = '|'
    · rw [if_pos hc] at h
      have : i = 0 := by simpa using (Option.some.inj h).symm
      subst this
      simp
    · rw [if_neg hc] at h
      cases hf : findPipe t with
      | none => rw [hf] at h; simp at h
      | some j =>
        rw [hf] at h
        have : i = j + 1 := by simpa using (Option.some.inj h).symm
        subst this
        rw [List.take_succ_cons]
        intro hmem
        rcases List.mem_cons.mp hmem with h' | h'
        · exact hc h'.symm
        · exact ih hf h'

/-- "Contiguous slice of" relation. -/
def SliceOf (x l : List Char) : Prop := ∃ a b, l = a ++ x ++ b

theorem sliceOf_trans {x y z : List Char} (h1 : SliceOf x y) (h2 : SliceOf y z) :
    SliceOf x z := by
  obtain ⟨a, b, rfl⟩ := h1
  obtain ⟨c, d, rfl⟩ := h2
  exact ⟨c ++ a, b ++ d, by simp⟩

theorem sliceOf_take (l : List Char) (n : Nat) : SliceOf (l.take n) l :=
  ⟨[], l.drop n, by simp⟩

theorem sliceOf_drop (l : List Char) (n : Nat) : SliceOf (l.drop n) l :=
  ⟨l.take n, [], by simp⟩

theorem sliceOf_dropWhile (l : List Char) (p : Char → Bool) :
    SliceOf (l.dropWhile p) l :=
  ⟨l.takeWhile p, [], by simp [List.takeWhile_append_dropWhile]⟩

theorem sliceOf_trimL (l : List Char) : SliceOf (trimL l) l := by
  unfold trimL
  refine sliceOf_trans ?_ (sliceOf_dropWhile l Char.isWhitespace)
  set u := l.dropWhile Char.isWhitespace with hu
  refine ⟨[], (u.reverse.takeWhile Char.isWhitespace).reverse, ?_⟩
  rw [List.nil_append, ← List.reverse_append, List.takeWhile_append_dropWhile,
    List.reverse_reverse]

theorem sliceOf_sliceL (l : List Char) (a b : Nat) : SliceOf (sliceL l a b) l :=
  sliceOf_trans (sliceOf_drop (l.take b) a) (sliceOf_take l b)

/-- C7 (amended): extraction at an in-bounds offset succeeds exactly when
both delimiters are found — a malformed or unterminated bracket pair yields
no link, never a partially-filled one — and a successful target contains no
pipe and is a contiguous slice of the document; the target may however be
empty (see `c7_empty_target_counterexample`). -/
theorem c7_target_shape (content : List Char) (offset : Nat)
    (h : offset ≤ content.length) :
    (extract_wikilink_at_offset content offset = some none ↔
      rfindSub dblOpen (content.take offset) = none ∨
        findSub dblClose (content.drop offset) = none) ∧
    (∀ t, extract_wikilink_at_offset content offset = some (some t) →
      '|' ∉ t ∧ SliceOf t content) := by
  cases hr : rfindSub dblOpen (content.take offset) with
  | none =>
    constructor
    · simp [extract_wikilink_at_offset, h, hr]
    · intro t ht
      simp [extract_wikilink_at_offset, h, hr] at ht
  | some si =>
    cases hf : findSub dblClose (content.drop offset) with
    | none =>
      constructor
      · simp [extract_wikilink_at_offset, h, hr, hf]
      · intro t ht
        simp [extract_wikilink_at_offset, h, hr, hf] at ht
    | some rel =>
      have hslice : SliceOf (trimL (sliceL content (si + 2) (offset + rel))) content :=
        sliceOf_trans (sliceOf_trimL _) (sliceOf_sliceL content (si + 2) (offset + rel))
      cases hp : findPipe (trimL (sliceL content (si + 2) (offset + rel))) with
      | some pi =>
        constructor
        · simp [extract_wikilink_at_offset, h, hr, hf, hp]
        · intro t ht
          simp only [extract_wikilink_at_offset, if_pos h, hr, hf, hp,
            Option.some.injEq] at ht
          subst ht
          constructor
          · intro hmem
            exact findPipe_take hp (mem_trimL hmem)
          · exact sliceOf_trans
              (sliceOf_trans (sliceOf_trimL _) (sliceOf_take _ pi)) hslice
      | none =>
        constructor
        · simp [extract_wikilink_at_offset, h, hr, hf, hp]
        · intro t ht
          simp only [extract_wikilink_at_offset, if_pos h, hr, hf, hp,
            Option.some.injEq] at ht
          subst ht
          exact ⟨fun hmem => findPipe_none hp hmem, hslice⟩

/-- Witness for `c7_target_shape` on `"x[[a|b]]y"` at offset 3. -/
theorem c7_target_shape_witness :
    3 ≤ (sL "x[[a|b]]y").length ∧
      ((extract_wikilink_at_offset (sL "x[[a|b]]y") 3 = some none ↔
          rfindSub dblOpen ((sL "x[[a|b]]y").take 3) = none ∨
            findSub dblClose ((sL "x[[a|b]]y").drop 3) = none) ∧
        (∀ t, extract_wikilink_at_offset (sL "x[[a|b]]y") 3 = some (some t) →
          '|' ∉ t ∧ SliceOf t (sL "x[[a|b]]y"))) :=
  ⟨by decide, c7_target_shape (sL "x[[a|b]]y") 3 (by decide)⟩

/-- C5 (code bug): `position_to_offset` performs no clamping.  On the text
`"ab"` (length 2, one line of length 2): position (0,5) yields offset 5 — the
raw character count is added, not clamped to the line length 2, and 5 is out
of bounds; position (1,0) — line 1 exceeds the line count — yields 3, not the
end-of-text offset 2 (`lines()` yields one line and the loop adds
`len+1 = 3`), contradicting the documented contract. -/
theorem c5_no_clamp_no_eof_cap :
    position_to_offset (sL "ab") 0 5 = 5 ∧ ¬ (5 ≤ (sL "ab").length) ∧
      position_to_offset (sL "ab") 1 0 = 3 ∧ (3 : Nat) ≠ (sL "ab").length :=
  ⟨by decide, by decide, by decide, by decide⟩

/-! ## Outline builder (src/symbol.rs, `collect_symbols`)

```rust
pub fn collect_symbols(parser: Parser) -> Vec<DocumentSymbol> {
    let mut symbols = Vec::new();
    let mut current_line = 0;
    let mut header_stack: Vec<HeaderInfo> = Vec::new();
    let mut in_heading = false;
    for event in parser {
        match event {
            Event::Start(Tag::Heading { level, .. }) => {
                in_heading = true;
                while let Some(last) = header_stack.last() {
                    if last.level >= level {
                        let completed = header_stack.pop().unwrap();
                        if let Some(parent) = header_stack.last_mut() {
                            parent.symbol.children.get_or_insert_with(Vec::new)
                                .push(completed.symbol);
                        } else { symbols.push(completed.symbol); }
                    } else { break; }
                }
                header_stack.push(new_header /* level, line-based ranges */);
            }
            Event::Text(text) if in_heading => { /* append to top's name */ }
            Event::End(TagEnd::Heading(_)) => { in_heading = false; current_line += 1; }
            _ => { current_line += 1; }
        }
    }
    while let Some(completed) = header_stack.pop() { /* attach as above */ }
    symbols
}
```

The model keeps the `HeaderInfo` level inside the node (the Rust
`DocumentSymbol` drops it after construction) and adds a ghost field `idx` —
the ordinal of the heading's start event — so that document order is
expressible.  `pulldown_cmark` events are abstracted to the four shapes the
function distinguishes. -/

inductive MdEvent where
  | startH (level : Nat)
  | txt (s : List Char)
  | endH
  | other

/-- Outline node: heading name, heading level (from `HeaderInfo`), the
`current_line` at creation (the Rust range is `(line,0)–(line,80)`), a ghost
document-order index, and the ordered children. -/
structure ONode where
  name : List Char
  level : Nat
  line : Nat
  idx : Nat
  children : List ONode

/-- The pop-and-attach loop on a heading of level `lv`: `top` is the current
stack top, the list argument is the rest of the stack (top first). -/
def popAttachGo (lv : Nat) : ONode → List ONode → List ONode →
    List ONode × List ONode
  | top, [], syms =>
    if lv ≤ top.level then ([], syms ++ [top]) else ([top], syms)
  | top, parent :: rest, syms =>
    if lv ≤ top.level then
      popAttachGo lv { parent with children := parent.children ++ [top] } rest syms
    else (top :: parent :: rest, syms)

def popAttach (lv : Nat) (stack syms : List ONode) : List ONode × List ONode :=
  match stack with
  | [] => ([], syms)
  | top :: rest => popAttachGo lv top rest syms

/-- The end-of-stream drain loop. -/
def drainGo : ONode → List ONode → List ONode → List ONode
  | top, [], syms => syms ++ [top]
  | top, parent :: rest, syms =>
    drainGo { parent with children := parent.children ++ [top] } rest syms

def drain (stack syms : List ONode) : List ONode :=
  match stack with
  | [] => syms
  | top :: rest => drainGo top rest syms

structure BState where
  syms : List ONode
  stack : List ONode
  inHeading : Bool
  line : Nat
  ctr : Nat

def stepEv (st : BState) : MdEvent → BState
  | MdEvent.startH lv =>
    { st with
      syms := (popAttach lv st.stack st.syms).2
      stack := ⟨[], lv, st.line, st.ctr, []⟩ :: (popAttach lv st.stack st.syms).1
      inHeading := true
      ctr := st.ctr + 1 }
  | MdEvent.txt s =>
    if st.inHeading then
      match st.stack with
      | [] => st
      | top :: rest => { st with stack := { top with name := top.name ++ s } :: rest }
    else { st with line := st.line + 1 }
  | MdEvent.endH => { st with inHeading := false, line := st.line + 1 }
  | MdEvent.other => { st with line := st.line + 1 }

def initState : BState := ⟨[], [], false, 0, 0⟩

/-- `collect_symbols` from src/symbol.rs. -/
def collect_symbols (es : List MdEvent) : List ONode :=
  drain (es.foldl stepEv initState).stack (es.foldl stepEv initState).syms

/-- Number of heading-start events in a stream. -/
def countStarts : List MdEvent → Nat
  | [] => 0
  | MdEvent.startH _ :: es => countStarts es + 1
  | MdEvent.txt _ :: es => countStarts es
  | MdEvent.endH :: es => countStarts es
  | MdEvent.other :: es => countStarts es

/-- Adjacent document-order indices strictly increase. -/
def chainIdx : List ONode → Bool
  | [] => true
  | [_] => true
  | a :: b :: rest => decide (a.idx < b.idx) && chainIdx (b :: rest)

mutual
/-- Recursive well-formedness: children have strictly greater levels, sit in
document order, and are themselves well-formed. -/
def nodeOk : ONode → Bool
  | ONode.mk _ lv _ _ cs =>
    cs.all (fun c => decide (lv < c.level)) && chainIdx cs && forestOk cs
def forestOk : List ONode → Bool
  | [] => true
  | c :: cs => nodeOk c && forestOk cs
end

mutual
/-- Largest ghost index in a subtree. -/
def maxIdxN : ONode → Nat
  | ONode.mk _ _ _ i cs => max i (maxIdxF cs)
def maxIdxF : List ONode → Nat
  | [] => 0
  | c :: cs => max (maxIdxN c) (maxIdxF cs)
end

mutual
/-- Number of nodes in a subtree. -/
def sizeN : ONode → Nat
  | ONode.mk _ _ _ _ cs => 1 + sizeF cs
def sizeF : List ONode → Nat
  | [] => 0
  | c :: cs => sizeN c + sizeF cs
end

/-! ### Small algebra of the outline predicates -/

theorem forestOk_append (l : List ONode) (n : ONode) :
    forestOk (l ++ [n]) = (forestOk l && nodeOk n) := by
  induction l with
  | nil => simp [forestOk]
  | cons c cs ih =>
    simp [forestOk, ih, Bool.and_assoc]

theorem sizeF_append (l : List ONode) (n : ONode) :
    sizeF (l ++ [n]) = sizeF l + sizeN n := by
  induction l with
  | nil => simp [sizeF]
  | cons c cs ih =>
    simp [sizeF, ih]
    omega

theorem maxIdxF_append (l : List ONode) (n : ONode) :
    maxIdxF (l ++ [n]) = max (maxIdxF l) (maxIdxN n) := by
  induction l with
  | nil => simp [maxIdxF]
  | cons c cs ih =>
    simp [maxIdxF, ih]
    omega

theorem chainIdx_append (l : List ONode) (n : ONode)
    (hl : chainIdx l = true) (hlt : ∀ s ∈ l, s.idx < n.idx) :
    chainIdx (l ++ [n]) = true := by
  induction l with
  | nil => simp [chainIdx]
  | cons a l ih =>
    cases l with
    | nil =>
      simp [chainIdx]
      exact hlt a (by simp)
    | cons b l' =>
      simp only [List.cons_append, chainIdx, Bool.and_eq_true,
        decide_eq_true_eq] at hl ⊢
      refine ⟨hl.1, ?_⟩
      have := ih hl.2 (fun s hs => hlt s (List.mem_cons_of_mem _ hs))
      simpa using this

theorem maxIdxN_unfold (n : ONode) : maxIdxN n = max n.idx (maxIdxF n.children) := by
  cases n; rfl

theorem idx_le_maxIdxN (n : ONode) : n.idx ≤ maxIdxN n := by
  rw [maxIdxN_unfold]; omega

theorem maxIdxN_le_maxIdxF {c : ONode} {cs : List ONode} (h : c ∈ cs) :
    maxIdxN c ≤ maxIdxF cs := by
  induction cs with
  | nil => simp at h
  | cons d ds ih =>
    rcases List.mem_cons.mp h with h | h
    · subst h; simp only [maxIdxF]; omega
    · have := ih h
      simp only [maxIdxF]; omega

theorem child_idx_lt {c parent : ONode} (hc : c ∈ parent.children)
    {bound : Nat} (hb : maxIdxN parent < bound) : c.idx < bound := by
  have h1 : c.idx ≤ maxIdxN c := idx_le_maxIdxN c
  have h2 : maxIdxN c ≤ maxIdxF parent.children := maxIdxN_le_maxIdxF hc
  have h3 : maxIdxF parent.children ≤ maxIdxN parent := by
    rw [maxIdxN_unfold]; omega
  omega

theorem nodeOk_attach {parent top : ONode}
    (hp : nodeOk parent = true) (htop : nodeOk top = true)
    (hlvl : parent.level < top.level)
    (hidx : ∀ c ∈ parent.children, c.idx < top.idx) :
    nodeOk { parent with children := parent.children ++ [top] } = true := by
  cases parent with
  | mk nm lv ln ix cs =>
    simp only [nodeOk, Bool.and_eq_true, List.all_eq_true,
      decide_eq_true_eq] at hp ⊢
    obtain ⟨⟨hall, hchain⟩, hforest⟩ := hp
    refine ⟨⟨?_, ?_⟩, ?_⟩
    · intro c hc
      rcases List.mem_append.mp hc with h | h
      · exact hall c h
      · rw [List.mem_singleton.mp h]; exact hlvl
    · exact chainIdx_append cs top hchain hidx
    · rw [forestOk_append, Bool.and_eq_true]
      exact ⟨hforest, htop⟩

theorem maxIdxN_attach (parent top : ONode) :
    maxIdxN { parent with children := parent.children ++ [top] }
      = max (maxIdxN parent) (maxIdxN top) := by
  cases parent with
  | mk nm lv ln ix cs =>
    simp only [maxIdxN, maxIdxF_append]
    omega

theorem sizeN_attach (parent top : ONode) :
    sizeN { parent with children := parent.children ++ [top] }
      = sizeN parent + sizeN top := by
  cases parent with
  | mk nm lv ln ix cs =>
    simp only [sizeN, sizeF_append]
    omega

theorem nodeOk_rename (top : ONode) (nm : List Char) :
    nodeOk { top with name := nm } = nodeOk top := by
  cases top; rfl

theorem maxIdxN_rename (top : ONode) (nm : List Char) :
    maxIdxN { top with name := nm } = maxIdxN top := by
  cases top; rfl

theorem sizeN_rename (top : ONode) (nm : List Char) :
    sizeN { top with name := nm } = sizeN top := by
  cases top; rfl

theorem sizeN_pos (n : ONode) : 0 < sizeN n := by
  cases n; simp [sizeN]

/-! ### The builder invariant -/

/-- Relation between a stack entry and the entry directly below it: the lower
entry was opened earlier (its whole subtree has smaller ghost indices) and is
shallower. -/
def stackRel (a b : ONode) : Prop := maxIdxN b < a.idx ∧ b.level < a.level

/-- Invariant tying the emitted top-level `syms`, the open-header `stack`
(top first) and the ghost counter `ctr`. -/
structure StackInvP (stack syms : List ONode) (ctr : Nat) : Prop where
  stack_ok : ∀ s ∈ stack, nodeOk s = true
  stack_chain : List.Chain' stackRel stack
  syms_ok : forestOk syms = true
  syms_chain : chainIdx syms = true
  stack_bound : ∀ s ∈ stack, maxIdxN s < ctr
  syms_bound : ∀ s ∈ syms, maxIdxN s < ctr
  cross : ∀ s ∈ syms, ∀ e ∈ stack, s.idx < e.idx

theorem stackInvP_push_syms {rest syms : List ONode} {ctr : Nat} {top : ONode}
    (inv : StackInvP (top :: rest) syms ctr) :
    StackInvP [] (syms ++ [top]) ctr where
  stack_ok := by simp
  stack_chain := List.chain'_nil
  syms_ok := by
    rw [forestOk_append, Bool.and_eq_true]
    exact ⟨inv.syms_ok, inv.stack_ok top (by simp)⟩
  syms_chain :=
    chainIdx_append _ _ inv.syms_chain
      (fun s hs => inv.cross s hs top (by simp))
  stack_bound := by simp
  syms_bound := by
    intro s hs
    rcases List.mem_append.mp hs with h | h
    · exact inv.syms_bound s h
    · rw [List.mem_singleton.mp h]
      exact inv.stack_bound top (by simp)
  cross := by simp

/-- One attach step preserves the invariant: the popped `top` becomes the last
child of `parent`. -/
theorem stackInvP_attach {rest' syms : List ONode} {ctr : Nat}
    {top parent : ONode}
    (inv : StackInvP (top :: parent :: rest') syms ctr) :
    StackInvP ({ parent with children := parent.children ++ [top] } :: rest')
      syms ctr := by
  have hrel : stackRel top parent := (List.chain'_cons.mp inv.stack_chain).1
  have htail : List.Chain' stackRel (parent :: rest') :=
    (List.chain'_cons.mp inv.stack_chain).2
  have hpok : nodeOk parent = true := inv.stack_ok parent (by simp)
  have htok : nodeOk top = true := inv.stack_ok top (by simp)
  have hmaxp : maxIdxN parent < ctr := inv.stack_bound parent (by simp)
  have hmaxt : maxIdxN top < ctr := inv.stack_bound top (by simp)
  refine ⟨?_, ?_, inv.syms_ok, inv.syms_chain, ?_, inv.syms_bound, ?_⟩
  · intro s hs
    rcases List.mem_cons.mp hs with h | h
    · subst h
      exact nodeOk_attach hpok htok hrel.2
        (fun c hc => child_idx_lt hc hrel.1)
    · exact inv.stack_ok s (by simp [h])
  · rw [List.chain'_cons']
    refine ⟨?_, (List.chain'_cons'.mp htail).2⟩
    intro b hb
    have := (List.chain'_cons'.mp htail).1 b hb
    exact this
  · intro s hs
    rcases List.mem_cons.mp hs with h | h
    · subst h
      rw [maxIdxN_attach]
      omega
    · exact inv.stack_bound s (by simp [h])
  · intro s hs e he
    rcases List.mem_cons.mp he with h | h
    · subst h
      exact inv.cross s hs parent (by simp)
    · exact inv.cross s hs e (by simp [h])

theorem popAttachGo_spec (lv : Nat) (rest : List ONode) :
    ∀ (top : ONode) (syms : List ONode) (ctr : Nat),
      StackInvP (top :: rest) syms ctr →
      StackInvP (popAttachGo lv top rest syms).1 (popAttachGo lv top rest syms).2 ctr ∧
        (∀ hd ∈ (popAttachGo lv top rest syms).1.head?, hd.level < lv) ∧
        sizeF (popAttachGo lv top rest syms).2 + sizeF (popAttachGo lv top rest syms).1
          = sizeF syms + sizeF (top :: rest) := by
  induction rest with
  | nil =>
    intro top syms ctr inv
    by_cases hle : lv ≤ top.level
    · simp only [popAttachGo, if_pos hle]
      refine ⟨stackInvP_push_syms inv, by simp, ?_⟩
      simp [sizeF_append, sizeF]
    · simp only [popAttachGo, if_neg hle]
      refine ⟨inv, ?_, by simp [sizeF]⟩
      intro hd hhd
      simp only [List.head?_cons, Option.mem_def, Option.some.injEq] at hhd
      subst hhd
      omega
  | cons parent rest' ih =>
    intro top syms ctr inv
    by_cases hle : lv ≤ top.level
    · simp only [popAttachGo, if_pos hle]
      have inv' := stackInvP_attach inv
      have hrec := ih _ syms ctr inv'
      refine ⟨hrec.1, hrec.2.1, ?_⟩
      have hsz := hrec.2.2
      have : sizeF ({ parent with children := parent.children ++ [top] } :: rest')
          = sizeF (top :: parent :: rest') := by
        simp only [sizeF, sizeN_attach]
        omega
      omega
    · simp only [popAttachGo, if_neg hle]
      refine ⟨inv, ?_, by simp⟩
      intro hd hhd
      simp only [List.head?_cons, Option.mem_def, Option.some.injEq] at hhd
      subst hhd
      omega

theorem drainGo_spec (rest : List ONode) :
    ∀ (top : ONode) (syms : List ONode) (ctr : Nat),
      StackInvP (top :: rest) syms ctr →
      forestOk (drainGo top rest syms) = true ∧
        chainIdx (drainGo top rest syms) = true ∧
        sizeF (drainGo top rest syms) = sizeF syms + sizeF (top :: rest) := by
  induction rest with
  | nil =>
    intro top syms ctr inv
    have inv' := stackInvP_push_syms inv
    simp only [drainGo]
    refine ⟨inv'.syms_ok, inv'.syms_chain, ?_⟩
    simp [sizeF_append, sizeF]
  | cons parent rest' ih =>
    intro top syms ctr inv
    have inv' := stackInvP_attach inv
    have hrec := ih _ syms ctr inv'
    simp only [drainGo]
    refine ⟨hrec.1, hrec.2.1, ?_⟩
    have hsz := hrec.2.2
    have : sizeF ({ parent with children := parent.children ++ [top] } :: rest')
        = sizeF (top :: parent :: rest') := by
      simp only [sizeF, sizeN_attach]
      omega
    omega

/-- Full state invariant: the structural invariant, plus "every heading so
far is in exactly one tree" (total size = ghost counter). -/
def InvS (st : BState) : Prop :=
  StackInvP st.stack st.syms st.ctr ∧ sizeF st.syms + sizeF st.stack = st.ctr

theorem nodeOk_fresh (lv ln ix : Nat) :
    nodeOk ⟨[], lv, ln, ix, []⟩ = true := by
  simp [nodeOk, chainIdx, forestOk]

theorem maxIdxN_fresh (lv ln ix : Nat) :
    maxIdxN (⟨[], lv, ln, ix, []⟩ : ONode) = ix := by
  simp [maxIdxN, maxIdxF]

theorem sizeN_fresh (lv ln ix : Nat) :
    sizeN (⟨[], lv, ln, ix, []⟩ : ONode) = 1 := by
  simp [sizeN, sizeF]

theorem stepEv_inv (st : BState) (ev : MdEvent) (h : InvS st) :
    InvS (stepEv st ev) := by
  obtain ⟨inv, hsz⟩ := h
  cases ev with
  | startH lv =>
    cases hstk : st.stack with
    | nil =>
      rw [hstk] at inv hsz
      simp only [InvS, stepEv, hstk, popAttach]
      refine ⟨⟨?_, ?_, inv.syms_ok, inv.syms_chain, ?_, ?_, ?_⟩, ?_⟩
      · intro s hs
        rcases List.mem_cons.mp hs with h | h
        · subst h; exact nodeOk_fresh lv st.line st.ctr
        · simp at h
      · exact List.chain'_singleton _
      · intro s hs
        rcases List.mem_cons.mp hs with h | h
        · subst h
          rw [maxIdxN_fresh]
          omega
        · simp at h
      · intro s hs
        have := inv.syms_bound s hs
        omega
      · intro s hs e he
        rcases List.mem_cons.mp he with h | h
        · subst h
          have h1 := inv.syms_bound s hs
          have h2 := idx_le_maxIdxN s
          show s.idx < st.ctr
          omega
        · simp at h
      · simp only [sizeF, sizeN_fresh]
        simp only [sizeF] at hsz
        omega
    | cons top rest =>
      rw [hstk] at inv hsz
      have hspec := popAttachGo_spec lv rest top st.syms st.ctr inv
      obtain ⟨inv', hhead, hsize⟩ := hspec
      simp only [InvS, stepEv, hstk, popAttach]
      refine ⟨⟨?_, ?_, inv'.syms_ok, inv'.syms_chain, ?_, ?_, ?_⟩, ?_⟩
      · intro s hs
        rcases List.mem_cons.mp hs with h | h
        · subst h; exact nodeOk_fresh lv st.line st.ctr
        · exact inv'.stack_ok s h
      · rw [List.chain'_cons']
        refine ⟨?_, inv'.stack_chain⟩
        intro b hb
        have hmem : b ∈ (popAttachGo lv top rest st.syms).1 :=
          List.mem_of_mem_head? hb
        refine ⟨?_, ?_⟩
        · have := inv'.stack_bound b hmem
          have hidx : (⟨[], lv, st.line, st.ctr, []⟩ : ONode).idx = st.ctr := rfl
          rw [hidx]
          omega
        · exact hhead b hb
      · intro s hs
        rcases List.mem_cons.mp hs with h | h
        · subst h
          rw [maxIdxN_fresh]
          omega
        · have := inv'.stack_bound s h
          omega
      · intro s hs
        have := inv'.syms_bound s hs
        omega
      · intro s hs e he
        rcases List.mem_cons.mp he with h | h
        · subst h
          have h1 := inv'.syms_bound s hs
          have h2 := idx_le_maxIdxN s
          show s.idx < st.ctr
          omega
        · exact inv'.cross s hs e h
      · simp only [sizeF, sizeN_fresh]
        simp only [sizeF] at hsz hsize
        omega
  | txt s =>
    by_cases hih : st.inHeading
    · cases hstk : st.stack with
      | nil =>
        simp only [InvS, stepEv, hih, hstk, if_true]
        rw [hstk] at inv hsz
        exact ⟨inv, hsz⟩
      | cons top rest =>
        rw [hstk] at inv hsz
        simp only [InvS, stepEv, hih, hstk, if_true]
        refine ⟨⟨?_, ?_, inv.syms_ok, inv.syms_chain, ?_, ?_, ?_⟩, ?_⟩
        · intro x hx
          rcases List.mem_cons.mp hx with h | h
          · subst h
            rw [nodeOk_rename]
            exact inv.stack_ok top (by simp)
          · exact inv.stack_ok x (by simp [h])
        · rw [List.chain'_cons']
          refine ⟨?_, (List.chain'_cons'.mp inv.stack_chain).2⟩
          intro b hb
          exact (List.chain'_cons'.mp inv.stack_chain).1 b hb
        · intro x hx
          rcases List.mem_cons.mp hx with h | h
          · subst h
            rw [maxIdxN_rename]
            exact inv.stack_bound top (by simp)
          · exact inv.stack_bound x (by simp [h])
        · exact inv.syms_bound
        · intro x hx e he
          rcases List.mem_cons.mp he with h | h
          · subst h
            exact inv.cross x hx top (by simp)
          · exact inv.cross x hx e (by simp [h])
        · simp only [sizeF, sizeN_rename]
          simp only [sizeF] at hsz
          omega
    · simp only [InvS, stepEv, hih, Bool.false_eq_true, if_false]
      exact ⟨inv, hsz⟩
  | endH => exact ⟨inv, hsz⟩
  | other => exact ⟨inv, hsz⟩

theorem foldl_inv (es : List MdEvent) :
    ∀ st, InvS st → InvS (es.foldl stepEv st) := by
  induction es with
  | nil => intro st h; simpa using h
  | cons e es ih => intro st h; exact ih _ (stepEv_inv st e h)

theorem foldl_ctr (es : List MdEvent) :
    ∀ st, (es.foldl stepEv st).ctr = st.ctr + countStarts es := by
  induction es with
  | nil => intro st; simp [countStarts]
  | cons e es ih =>
    intro st
    rw [List.foldl_cons, ih]
    have hstep : (stepEv st e).ctr
        = st.ctr + (match e with | MdEvent.startH _ => 1 | _ => 0) := by
      cases e with
      | startH lv => rfl
      | txt s =>
        by_cases hih : st.inHeading
        · cases hstk : st.stack with
          | nil => simp [stepEv, hih, hstk]
          | cons a b => simp [stepEv, hih, hstk]
        · simp [stepEv, hih]
      | endH => rfl
      | other => rfl
    rw [hstep]
    cases e with
    | startH lv => simp [countStarts]; omega
    | txt s => simp [countStarts]
    | endH => simp [countStarts]
    | other => simp [countStarts]

theorem invS_init : InvS initState := by
  refine ⟨⟨?_, ?_, ?_, ?_, ?_, ?_, ?_⟩, ?_⟩ <;>
    simp [initState, forestOk, chainIdx, sizeF]

/-- C3: for every finite event stream, the outline built by `collect_symbols`
satisfies: every node is well-formed (children strictly deeper, siblings in
document order), the top-level nodes are in document order, the forest has
exactly one node per heading-start event (no synthetic root), and the result
is non-empty whenever the stream contains a heading. -/
theorem c3_outline_invariants (es : List MdEvent) :
    forestOk (collect_symbols es) = true ∧
      chainIdx (collect_symbols es) = true ∧
      sizeF (collect_symbols es) = countStarts es ∧
      (0 < countStarts es → collect_symbols es ≠ []) := by
  have hinv := foldl_inv es initState invS_init
  have hctr : (es.foldl stepEv initState).ctr = countStarts es := by
    simpa [initState] using foldl_ctr es initState
  obtain ⟨inv, hsz⟩ := hinv
  have hmain : forestOk (collect_symbols es) = true ∧
      chainIdx (collect_symbols es) = true ∧
      sizeF (collect_symbols es) = countStarts es := by
    unfold collect_symbols
    cases hstk : (es.foldl stepEv initState).stack with
    | nil =>
      rw [hstk] at inv hsz
      simp only [drain]
      refine ⟨inv.syms_ok, inv.syms_chain, ?_⟩
      simp only [sizeF] at hsz
      omega
    | cons top rest =>
      rw [hstk] at inv hsz
      simp only [drain]
      have hds := drainGo_spec rest top (es.foldl stepEv initState).syms
        (es.foldl stepEv initState).ctr inv
      refine ⟨hds.1, hds.2.1, ?_⟩
      rw [hds.2.2]
      omega
  refine ⟨hmain.1, hmain.2.1, hmain.2.2, ?_⟩
  intro hpos hnil
  have := hmain.2.2
  rw [hnil] at this
  simp only [sizeF] at this
  omega

/-- Witness for `c3_outline_invariants`: a stream with one level-1 heading. -/
theorem c3_outline_invariants_witness :
    0 < countStarts [MdEvent.startH 1, MdEvent.txt (sL "A"), MdEvent.endH] ∧
      collect_symbols [MdEvent.startH 1, MdEvent.txt (sL "A"), MdEvent.endH] ≠ [] :=
  ⟨by decide,
    (c3_outline_invariants
      [MdEvent.startH 1, MdEvent.txt (sL "A"), MdEvent.endH]).2.2.2 (by decide)⟩

/-! ## The flat document-symbol parser (src/main.rs, `parse_markdown_symbols`)

```rust
fn parse_markdown_symbols(text: &str) -> Vec<DocumentSymbol> {
    let mut symbols = Vec::new();
    for (line_num, line) in text.lines().enumerate() {
        if let Some(stripped) = line.strip_prefix('#') {
            let mut level = 1;
            let mut rest = stripped;
            while rest.starts_with('#') { level += 1; rest = &rest[1..]; }
            let title = rest.trim();
            if title.is_empty() { continue; }
            // range: (line_num,0)..(line_num,line.len()); children: None
            symbols.push(DocumentSymbol { name: title, .. });
        }
    }
    symbols
}
```
This is what the `document_symbol` LSP endpoint of the main.rs `Backend`
returns (nested response constructor, but `children` is always `None`). -/

structure MDocSymbol where
  name : List Char
  level : Nat
  line : Nat
  endChar : Nat
  children : Option (List MDocSymbol)

/-- Number of leading `'#'` characters. -/
def countHashes : List Char → Nat
  | [] => 0
  | c :: t => if c = '#' then countHashes t + 1 else 0

/-- `parse_markdown_symbols` from src/main.rs (lines 208–245). -/
def parse_markdown_symbols (text : List Char) : List MDocSymbol :=
  (rustLines text).enum.filterMap fun p =>
    if p.2.head? = some '#' then
      if trimL (p.2.drop (countHashes p.2)) = [] then none
      else some ⟨trimL (p.2.drop (countHashes p.2)), countHashes p.2,
        p.1, p.2.length, none⟩
    else none

/-- C9 counterexample: the LSP document-outline endpoint
(`document_symbol` → `parse_markdown_symbols`) on
`"# Main\n## Sub 1\n### Deep\n## Sub 2"` returns FOUR top-level symbols with
no children — not one nested top-level node. -/
theorem c9_flat_counterexample :
    ((parse_markdown_symbols (sL "# Main\n## Sub 1\n### Deep\n## Sub 2")).map
        (fun s => (s.name, s.level, s.line))
      = [(sL "Main", 1, 0), (sL "Sub 1", 2, 1), (sL "Deep", 3, 2), (sL "Sub 2", 2, 3)]) ∧
      (parse_markdown_symbols (sL "# Main\n## Sub 1\n### Deep\n## Sub 2")).length = 4 ∧
      (4 : Nat) ≠ 1 ∧
      (parse_markdown_symbols (sL "# Main\n## Sub 1\n### Deep\n## Sub 2")).all
          (fun s => s.children.isNone) = true :=
  ⟨by decide, by decide, by decide, by decide⟩

/-- The heading-event stream `pulldown_cmark` produces for
`"# Main\n## Sub 1\n### Deep\n## Sub 2"`. -/
def esMain : List MdEvent :=
  [MdEvent.startH 1, MdEvent.txt (sL "Main"), MdEvent.endH,
   MdEvent.startH 2, MdEvent.txt (sL "Sub 1"), MdEvent.endH,
   MdEvent.startH 3, MdEvent.txt (sL "Deep"), MdEvent.endH,
   MdEvent.startH 2, MdEvent.txt (sL "Sub 2"), MdEvent.endH]

/-- C9 (amended): the nested outline of the claim is produced by the
stack-based builder `collect_symbols` (src/symbol.rs) on the document's
heading-event stream — exactly one top-level node `Main` with children
`Sub 1` (which has the single child `Deep`) and `Sub 2`, in that order —
while the `document_symbol` endpoint itself returns the four flat symbols of
`c9_flat_counterexample`. -/
theorem c9_nested_outline :
    collect_symbols esMain =
      [⟨sL "Main", 1, 0, 0,
        [⟨sL "Sub 1", 2, 1, 1, [⟨sL "Deep", 3, 2, 2, []⟩]⟩,
         ⟨sL "Sub 2", 2, 3, 3, []⟩]⟩] ∧
      (parse_markdown_symbols (sL "# Main\n## Sub 1\n### Deep\n## Sub 2")).map
          (fun s => (s.name, s.children))
        = [(sL "Main", none), (sL "Sub 1", none), (sL "Deep", none),
           (sL "Sub 2", none)] := by
  constructor
  · rfl
  · rfl

/-! ## Workspace fuzzy filter (src/main.rs, `fuzzy_match`, lines 280–305, and
the filter/sort in `symbol`, lines 106–115)

```rust
fn fuzzy_match(query: &str, candidate: &str) -> Option<usize> {
    if query.trim().is_empty() { return Some(0); }
    let query = query.to_lowercase();
    let candidate = candidate.to_lowercase();
    let candidate_chars: Vec<char> = candidate.chars().collect();
    let mut pos_candidate = 0;
    let mut total_gap = 0;
    for qc in query.chars() {
        let mut found = false;
        while pos_candidate < candidate_chars.len() {
            if candidate_chars[pos_candidate] == qc {
                found = true; pos_candidate += 1; break;
            }
            total_gap += 1; pos_candidate += 1;
        }
        if !found { return None; }
    }
    Some(total_gap)
}
```

(`str::to_lowercase` is modelled character-wise with `Char.toLower`.)  The
caller filters with `filter_map(fuzzy_match …)` and then runs the stable
`sort_by_key(score)`; a stable sort's output is uniquely determined, so it is
modelled by a stable insertion sort. -/

def lowerL (l : List Char) : List Char := l.map Char.toLower

/-- The inner `while` of `fuzzy_match`: scan for `qc`, counting skips. -/
def findCharFrom (qc : Char) : List Char → Nat → Option (List Char × Nat)
  | [], _ => none
  | c :: cs, gap => if c = qc then some (cs, gap) else findCharFrom qc cs (gap + 1)

/-- The outer `for` of `fuzzy_match`. -/
def fuzzyLoop : List Char → List Char → Nat → Option Nat
  | [], _, gap => some gap
  | qc :: qs, cand, gap =>
    match findCharFrom qc cand gap with
    | none => none
    | some r => fuzzyLoop qs r.1 r.2

/-- `fuzzy_match` from src/main.rs. -/
def fuzzy_match (query candidate : List Char) : Option Nat :=
  if trimL query = [] then some 0
  else fuzzyLoop (lowerL query) (lowerL candidate) 0

/-- Index one past the last candidate character consumed by the greedy
leftmost subsequence embedding (`none` when there is no embedding). -/
def greedyEnd : List Char → List Char → Option Nat
  | [], _ => some 0
  | _ :: _, [] => none
  | qc :: qs, c :: cs =>
    if c = qc then (greedyEnd qs cs).map (· + 1)
    else (greedyEnd (qc :: qs) cs).map (· + 1)

/-- Stable insertion into a score-sorted list: a new element goes before the
first entry whose score is not smaller, so earlier input stays first among
equal scores. -/
def insertByScore (x : Nat × List Char) :
    List (Nat × List Char) → List (Nat × List Char)
  | [] => [x]
  | y :: ys => if y.1 < x.1 then y :: insertByScore x ys else x :: y :: ys

/-- Stable sort by ascending score (the behaviour of Rust's stable
`sort_by_key`, whose output any stable sort reproduces uniquely). -/
def sortByScore : List (Nat × List Char) → List (Nat × List Char)
  | [] => []
  | x :: xs => insertByScore x (sortByScore xs)

/-- `filter_map(|sym| fuzzy_match(query, name).map(|score| (score, sym)))`. -/
def fuzzyMatches (query : List Char) (names : List (List Char)) :
    List (Nat × List Char) :=
  names.filterMap fun nm => (fuzzy_match query nm).map (fun s => (s, nm))

/-- The non-blank-query branch of `symbol`: fuzzy-filter then stable sort by
ascending score. -/
def workspaceFilter (query : List Char) (names : List (List Char)) :
    List (Nat × List Char) :=
  sortByScore (fuzzyMatches query names)

/-- C4 counterexample: query `"b"` against candidate `"ab"`.  There are no
*consecutive* matched query characters (the query has one character), so the
claimed score is 0, but the code counts the skipped leading `'a'` and scores
1: skips before the first matched query character are counted too. -/
theorem c4_leading_gap_counterexample :
    fuzzy_match (sL "b") (sL "ab") = some 1 ∧ (1 : Nat) ≠ 0 :=
  ⟨by decide, by decide⟩

theorem fuzzyLoop_skip {qc c : Char} (qs cs : List Char) (g : Nat) (hc : c ≠ qc) :
    fuzzyLoop (qc :: qs) (c :: cs) g = fuzzyLoop (qc :: qs) cs (g + 1) := by
  simp only [fuzzyLoop, findCharFrom, if_neg hc]

theorem greedyEnd_cons_match (qc : Char) (qs cs : List Char) :
    greedyEnd (qc :: qs) (qc :: cs) = (greedyEnd qs cs).map (· + 1) := by
  simp [greedyEnd]

theorem greedyEnd_cons_skip {qc ch : Char} (qs cs : List Char) (hc : ch ≠ qc) :
    greedyEnd (qc :: qs) (ch :: cs) = (greedyEnd (qc :: qs) cs).map (· + 1) := by
  simp [greedyEnd, hc]

theorem fuzzyLoop_eq_greedy (cs : List Char) :
    ∀ (qs : List Char) (g : Nat),
      fuzzyLoop qs cs g = (greedyEnd qs cs).map (fun n => g + n - qs.length) := by
  induction cs with
  | nil =>
    intro qs g
    cases qs with
    | nil => simp [fuzzyLoop, greedyEnd]
    | cons qc qs' => simp [fuzzyLoop, findCharFrom, greedyEnd]
  | cons c cs' ih =>
    intro qs g
    cases qs with
    | nil => simp [fuzzyLoop, greedyEnd]
    | cons qc qs' =>
      by_cases hc : c = qc
      · subst hc
        have h1 : fuzzyLoop (c :: qs') (c :: cs') g = fuzzyLoop qs' cs' g := by
          simp [fuzzyLoop, findCharFrom]
        rw [h1, ih qs' g, greedyEnd_cons_match]
        cases greedyEnd qs' cs' with
        | none => simp
        | some n =>
          simp only [Option.map_some', Option.some.injEq, List.length_cons]
          omega
      · rw [fuzzyLoop_skip qs' cs' g hc, ih (qc :: qs') (g + 1),
          greedyEnd_cons_skip qs' cs' hc]
        cases greedyEnd (qc :: qs') cs' with
        | none => simp
        | some n =>
          simp only [Option.map_some', Option.some.injEq, List.length_cons]
          omega

theorem greedyEnd_take (c : List Char) :
    ∀ (q : List Char) (n : Nat), greedyEnd q c = some n →
      List.Sublist q (c.take n) := by
  induction c with
  | nil =>
    intro q n h
    cases q with
    | nil =>
      simp only [greedyEnd, Option.some.injEq] at h
      subst h
      simp
    | cons qc qs => simp [greedyEnd] at h
  | cons ch cs ih =>
    intro q n h
    cases q with
    | nil =>
      simp only [greedyEnd, Option.some.injEq] at h
      subst h
      simp
    | cons qc qs =>
      by_cases hc : ch = qc
      · subst hc
        rw [greedyEnd_cons_match] at h
        cases hg : greedyEnd qs cs with
        | none => rw [hg] at h; simp at h
        | some n' =>
          rw [hg] at h
          simp only [Option.map_some', Option.some.injEq] at h
          rw [← h, List.take_succ_cons]
          exact List.Sublist.cons₂ _ (ih qs n' hg)
      · rw [greedyEnd_cons_skip qs cs hc] at h
        cases hg : greedyEnd (qc :: qs) cs with
        | none => rw [hg] at h; simp at h
        | some n' =>
          rw [hg] at h
          simp only [Option.map_some', Option.some.injEq] at h
          rw [← h, List.take_succ_cons]
          exact List.Sublist.cons _ (ih (qc :: qs) n' hg)

theorem greedyEnd_min (c : List Char) :
    ∀ (q : List Char) (n : Nat), greedyEnd q c = some n →
      ∀ m, List.Sublist q (c.take m) → n ≤ m := by
  induction c with
  | nil =>
    intro q n h m _
    cases q with
    | nil =>
      simp only [greedyEnd, Option.some.injEq] at h
      omega
    | cons qc qs => simp [greedyEnd] at h
  | cons ch cs ih =>
    intro q n h m hm
    cases q with
    | nil =>
      simp only [greedyEnd, Option.some.injEq] at h
      omega
    | cons qc qs =>
      cases m with
      | zero =>
        rw [List.take_zero] at hm
        exact absurd (List.sublist_nil.mp hm) (by simp)
      | succ m' =>
        rw [List.take_succ_cons] at hm
        by_cases hc : ch = qc
        · subst hc
          rw [greedyEnd_cons_match] at h
          cases hg : greedyEnd qs cs with
          | none => rw [hg] at h; simp at h
          | some n' =>
            rw [hg] at h
            simp only [Option.map_some', Option.some.injEq] at h
            have hqs : List.Sublist qs (cs.take m') := by
              cases hm with
              | cons _ h' => exact List.sublist_of_cons_sublist h'
              | cons₂ _ h' => exact h'
            have := ih qs n' hg m' hqs
            omega
        · rw [greedyEnd_cons_skip qs cs hc] at h
          cases hg : greedyEnd (qc :: qs) cs with
          | none => rw [hg] at h; simp at h
          | some n' =>
            rw [hg] at h
            simp only [Option.map_some', Option.some.injEq] at h
            have hq' : List.Sublist (qc :: qs) (cs.take m') := by
              cases hm with
              | cons _ h' => exact h'
              | cons₂ _ h' => exact absurd rfl hc
            have := ih (qc :: qs) n' hg m' hq'
            omega

theorem greedyEnd_complete (c : List Char) :
    ∀ (q : List Char), List.Sublist q c → (greedyEnd q c).isSome = true := by
  induction c with
  | nil =>
    intro q hq
    have : q = [] := List.sublist_nil.mp hq
    subst this
    simp [greedyEnd]
  | cons ch cs ih =>
    intro q hq
    cases q with
    | nil => simp [greedyEnd]
    | cons qc qs =>
      by_cases hc : ch = qc
      · subst hc
        rw [greedyEnd_cons_match, Option.isSome_map']
        have hqs : List.Sublist qs cs := by
          cases hq with
          | cons _ h' => exact List.sublist_of_cons_sublist h'
          | cons₂ _ h' => exact h'
        exact ih qs hqs
      · rw [greedyEnd_cons_skip qs cs hc, Option.isSome_map']
        have hq' : List.Sublist (qc :: qs) cs := by
          cases hq with
          | cons _ h' => exact h'
          | cons₂ _ h' => exact absurd rfl hc
        exact ih _ hq'

theorem mem_insertByScore (x z : Nat × List Char) (l : List (Nat × List Char)) :
    z ∈ insertByScore x l ↔ z = x ∨ z ∈ l := by
  induction l with
  | nil => simp [insertByScore]
  | cons y ys ih =>
    by_cases hy : y.1 < x.1
    · simp only [insertByScore, if_pos hy, List.mem_cons, ih]
      tauto
    · simp only [insertByScore, if_neg hy, List.mem_cons]

theorem insertByScore_sorted (x : Nat × List Char) (l : List (Nat × List Char))
    (hl : List.Pairwise (fun a b => a.1 ≤ b.1) l) :
    List.Pairwise (fun a b => a.1 ≤ b.1) (insertByScore x l) := by
  induction l with
  | nil => simp [insertByScore]
  | cons y ys ih =>
    rcases List.pairwise_cons.mp hl with ⟨hy, hys⟩
    by_cases h : y.1 < x.1
    · simp only [insertByScore, if_pos h]
      rw [List.pairwise_cons]
      refine ⟨?_, ih hys⟩
      intro z hz
      rcases (mem_insertByScore x z ys).mp hz with rfl | hz'
      · omega
      · exact hy z hz'
    · simp only [insertByScore, if_neg h]
      rw [List.pairwise_cons]
      refine ⟨?_, hl⟩
      intro z hz
      rcases List.mem_cons.mp hz with rfl | hz'
      · omega
      · have := hy z hz'
        omega

theorem sortByScore_sorted (l : List (Nat × List Char)) :
    List.Pairwise (fun a b => a.1 ≤ b.1) (sortByScore l) := by
  induction l with
  | nil => simp [sortByScore]
  | cons x xs ih => exact insertByScore_sorted x _ ih

theorem insertByScore_filter (x : Nat × List Char) (l : List (Nat × List Char))
    (s : Nat) :
    (insertByScore x l).filter (fun p => p.1 == s)
      = if x.1 = s then x :: l.filter (fun p => p.1 == s)
        else l.filter (fun p => p.1 == s) := by
  induction l with
  | nil =>
    simp only [insertByScore, List.filter_cons, List.filter_nil]
    by_cases hx : x.1 = s
    · simp [hx]
    · simp [hx]
  | cons y ys ih =>
    by_cases hy : y.1 < x.1
    · simp only [insertByScore, if_pos hy]
      by_cases hx : x.1 = s
      · have hyne : ¬ (y.1 = s) := by omega
        simp [List.filter_cons, hyne, hx, ih]
      · simp [List.filter_cons, ih, hx]
    · simp only [insertByScore, if_neg hy]
      by_cases hx : x.1 = s
      · simp [List.filter_cons, hx]
      · simp [List.filter_cons, hx]

theorem sortByScore_filter (l : List (Nat × List Char)) (s : Nat) :
    (sortByScore l).filter (fun p => p.1 == s) = l.filter (fun p => p.1 == s) := by
  induction l with
  | nil => simp [sortByScore]
  | cons x xs ih =>
    simp only [sortByScore]
    rw [insertByScore_filter, List.filter_cons]
    by_cases hx : x.1 = s
    · simp [hx, ih]
    · simp [hx, ih]

/-- C4 (amended): for a query whose trimmed text is non-empty, the filter
accepts a candidate iff the lowercased query is a subsequence of the
lowercased candidate; the score `g` of an accepted candidate satisfies
`g + |query| = n` where `n` is the least candidate position such that the
query embeds into the first `n` candidate characters — i.e. the score counts
every skipped candidate character up to the last match, including those
before the first matched query character; accepted candidates are kept with
their scores, sorted ascending by a stable sort (ties keep input order). -/
theorem c4_fuzzy_subsequence_filter (query cand : List Char)
    (names : List (List Char)) :
    (trimL query ≠ [] →
      ((fuzzy_match query cand).isSome = true ↔
        List.Sublist (lowerL query) (lowerL cand))) ∧
    (∀ g, fuzzy_match query cand = some g → trimL query ≠ [] →
      (List.Sublist (lowerL query) ((lowerL cand).take (g + query.length)) ∧
        ∀ m, List.Sublist (lowerL query) ((lowerL cand).take m) →
          g + query.length ≤ m)) ∧
    List.Pairwise (fun a b => a.1 ≤ b.1) (workspaceFilter query names) ∧
    (∀ s : Nat, (workspaceFilter query names).filter (fun p => p.1 == s)
      = (fuzzyMatches query names).filter (fun p => p.1 == s)) := by
  refine ⟨?_, ?_, sortByScore_sorted _, fun s => sortByScore_filter _ s⟩
  · intro hq
    rw [fuzzy_match, if_neg hq, fuzzyLoop_eq_greedy]
    constructor
    · intro h
      cases hg : greedyEnd (lowerL query) (lowerL cand) with
      | none => rw [hg] at h; simp at h
      | some n =>
        have := greedyEnd_take _ _ _ hg
        exact this.trans (List.take_sublist n _)
    · intro h
      have := greedyEnd_complete _ _ h
      rw [Option.isSome_map']
      exact this
  · intro g hsome hq
    rw [fuzzy_match, if_neg hq, fuzzyLoop_eq_greedy] at hsome
    cases hg : greedyEnd (lowerL query) (lowerL cand) with
    | none => rw [hg] at hsome; simp at hsome
    | some n =>
      rw [hg] at hsome
      simp only [Option.map_some', Option.some.injEq] at hsome
      have hlen : (lowerL query).length = query.length := List.length_map _ _
      have htk := greedyEnd_take _ _ _ hg
      have hnge : (lowerL query).length ≤ n := by
        have h2 := htk.length_le
        have h3 : ((lowerL cand).take n).length ≤ n := by
          rw [List.length_take]
          omega
        omega
      have hgn : g + query.length = n := by omega
      rw [hgn]
      exact ⟨htk, fun m hm => greedyEnd_min _ _ _ hg m hm⟩

/-- Witness for `c4_fuzzy_subsequence_filter`: query `"hd"`, candidate
`"Heading"` (the spec's own example). -/
theorem c4_fuzzy_witness :
    trimL (sL "hd") ≠ [] ∧
      ((fuzzy_match (sL "hd") (sL "Heading")).isSome = true ↔
        List.Sublist (lowerL (sL "hd")) (lowerL (sL "Heading"))) :=
  ⟨by decide,
    (c4_fuzzy_subsequence_filter (sL "hd") (sL "Heading")
      [sL "Heading", sL "xz"]).1 (by decide)⟩

/-! ## Link completion (src/handlers/completion.rs and src/main.rs)

`handle_completion` (src/handlers/completion.rs, lines 31–110):

```rust
let cursor_index = std::cmp::min(position.character as usize, current_line.len());
let start_index = match current_line[..cursor_index].rfind("[[") { .. };
let end_index = if cursor_index + 2 <= current_line.len()
    && &current_line[cursor_index..cursor_index + 2] == "]]"
    { cursor_index + 2 } else { cursor_index };
let range = Range { start: (line, start_index), end: (line, end_index) };
// every returned item carries `range` as its TextEdit span
```

The database file records and the JSON-metadata alias lookup (`get_alias`)
are external collaborators; records arrive here as already-fetched
`(virtual_path, alias)` pairs. -/

/-- Rust `str::replace("\\", "/")`, character-wise. -/
def replaceBackslash (l : List Char) : List Char :=
  l.map (fun c => if c = '\\' then '/' else c)

structure CItem where
  label : List Char
  rangeStart : Nat × Nat
  rangeEnd : Nat × Nat
  newText : List Char

/-- `handle_completion` from src/handlers/completion.rs; `none` models
`Ok(None)`. -/
def handle_completion (text : List Char) (line ch : Nat)
    (files : List (List Char × List Char)) : Option (List CItem) :=
  if line < (rustLines text).length then
    match rfindSub dblOpen
        (((rustLines text).getD line []).take
          (min ch ((rustLines text).getD line []).length)) with
    | none => none
    | some si =>
      some (files.filterMap fun f =>
        if (sL ".md").isSuffixOf f.1 then
          some ⟨replaceBackslash f.1, (line, si),
            (line,
              if min ch ((rustLines text).getD line []).length + 2
                    ≤ ((rustLines text).getD line []).length
                  ∧ sliceL ((rustLines text).getD line [])
                      (min ch ((rustLines text).getD line []).length)
                      (min ch ((rustLines text).getD line []).length + 2)
                    = dblClose
              then min ch ((rustLines text).getD line []).length + 2
              else min ch ((rustLines text).getD line []).length),
            dblOpen ++ replaceBackslash f.1 ++ sL " | " ++ f.2 ++ dblClose⟩
        else none)
  else none

structure MItem where
  label : List Char
  rangeStart : Nat × Nat
  rangeEnd : Nat × Nat
  newText : List Char

/-- `completion` from src/main.rs (lines 137–204).  Its `TextEdit` range is
`Range { start: position, end: position }` — an empty span at the cursor.
The outer `Option` models the panic of `line[..col]` when `col` exceeds the
line length (`none` = panic); the inner `Option` is `Ok(None)`.  Rows are the
already-fetched `(vault-relative vpath, title)` pairs of the pagetable
query. -/
def main_completion (text : List Char) (line ch : Nat)
    (rows : List (List Char × List Char)) : Option (Option (List MItem)) :=
  if line < (rustLines text).length then
    if ch < 2 then some none
    else if ch ≤ ((rustLines text).getD line []).length then
      if dblOpen.isSuffixOf (((rustLines text).getD line []).take ch) then
        some (some (rows.map fun r =>
          ⟨r.2, (line, ch), (line, ch), r.1 ++ sL " | " ++ r.2⟩))
      else some none
    else none
  else some none

theorem isPrefixOf_nil_false {pat : List Char} (h : pat ≠ []) :
    pat.isPrefixOf ([] : List Char) = false := by
  cases pat with
  | nil => exact absurd rfl h
  | cons c t => rfl

theorem rfindSub_none_all (pat : List Char) (hpat : pat ≠ []) :
    ∀ (l : List Char), rfindSub pat l = none →
      ∀ j, ¬ (pat.isPrefixOf (l.drop j) = true) := by
  intro l
  induction l with
  | nil =>
    intro _ j
    rw [List.drop_nil, isPrefixOf_nil_false hpat]
    simp
  | cons c t ih =>
    intro h j
    simp only [rfindSub] at h
    cases hr : rfindSub pat t with
    | some i => rw [hr] at h; simp at h
    | none =>
      rw [hr] at h
      have hnp : ¬ (pat.isPrefixOf (c :: t) = true) := by
        by_cases hp : pat.isPrefixOf (c :: t) = true
        · rw [if_pos hp] at h; simp at h
        · exact hp
      cases j with
      | zero => simpa using hnp
      | succ j' =>
        rw [List.drop_succ_cons]
        exact ih hr j'

theorem rfindSub_last (pat : List Char) (hpat : pat ≠ []) :
    ∀ (l : List Char) (i : Nat), rfindSub pat l = some i →
      pat.isPrefixOf (l.drop i) = true ∧
        ∀ j, i < j → ¬ (pat.isPrefixOf (l.drop j) = true) := by
  intro l
  induction l with
  | nil =>
    intro i h
    simp only [rfindSub, isPrefixOf_nil_false hpat] at h
    simp at h
  | cons c t ih =>
    intro i h
    simp only [rfindSub] at h
    cases hr : rfindSub pat t with
    | some i' =>
      rw [hr] at h
      simp only [Option.some.injEq] at h
      subst h
      obtain ⟨h1, h2⟩ := ih i' hr
      refine ⟨by simpa [List.drop_succ_cons] using h1, ?_⟩
      intro j hj
      cases j with
      | zero => omega
      | succ j' =>
        rw [List.drop_succ_cons]
        exact h2 j' (by omega)
    | none =>
      rw [hr] at h
      by_cases hp : pat.isPrefixOf (c :: t) = true
      · rw [if_pos hp] at h
        simp only [Option.some.injEq] at h
        subst h
        refine ⟨by simpa using hp, ?_⟩
        intro j hj
        cases j with
        | zero => omega
        | succ j' =>
          rw [List.drop_succ_cons]
          exact rfindSub_none_all pat hpat t hr j'
      · rw [if_neg hp] at h
        simp at h

/-- C8 (amended): the claimed replacement-span rule holds for the dedicated
completion handler in src/handlers/completion.rs — every returned item's span
starts at the last `[[` before the (clamped) cursor and ends at cursor + 2
exactly when the two characters after the cursor are `]]`, else at the
cursor.  The `completion` endpoint of the main.rs Backend does NOT obey the
rule: its spans are always empty, anchored at the cursor (see the
counterexample). -/
theorem c8_handler_span (text : List Char) (line ch : Nat)
    (files : List (List Char × List Char)) (cur : List Char) (cursor si : Nat)
    (hcur : cur = (rustLines text).getD line [])
    (hcursor : cursor = min ch cur.length)
    (hline : line < (rustLines text).length)
    (hsi : rfindSub dblOpen (cur.take cursor) = some si) :
    (∀ item ∈ (handle_completion text line ch files).getD [],
      item.rangeStart = (line, si) ∧
        item.rangeEnd = (line,
          if cursor + 2 ≤ cur.length ∧ sliceL cur cursor (cursor + 2) = dblClose
          then cursor + 2 else cursor)) ∧
      dblOpen.isPrefixOf ((cur.take cursor).drop si) = true ∧
      (∀ j, si < j → ¬ (dblOpen.isPrefixOf ((cur.take cursor).drop j) = true)) := by
  subst hcur
  subst hcursor
  have hlast := rfindSub_last dblOpen (by simp [dblOpen]) _ si hsi
  refine ⟨?_, hlast.1, hlast.2⟩
  intro item hitem
  simp only [handle_completion, if_pos hline, hsi, Option.getD_some] at hitem
  rw [List.mem_filterMap] at hitem
  obtain ⟨f, _, hf⟩ := hitem
  by_cases hmd : (sL ".md").isSuffixOf f.1 = true
  · rw [if_pos hmd] at hf
    have := Option.some.inj hf
    subst this
    exact ⟨rfl, rfl⟩
  · rw [if_neg hmd] at hf
    exact absurd hf (by simp)

/-- Witness for `c8_handler_span`: text `"x[[]]"`, cursor at (0,3) — just
after the `[[` with the auto-paired `]]` ahead. -/
theorem c8_handler_span_witness :
    ((sL "x[[]]" : List Char) = (rustLines (sL "x[[]]")).getD 0 []) ∧
      ((3 : Nat) = min 3 (sL "x[[]]").length) ∧
      (0 < (rustLines (sL "x[[]]")).length) ∧
      rfindSub dblOpen ((sL "x[[]]").take 3) = some 1 ∧
      ((∀ item ∈ (handle_completion (sL "x[[]]") 0 3
          [(sL "a.md", sL "A")]).getD [],
        item.rangeStart = (0, 1) ∧
          item.rangeEnd = (0,
            if 3 + 2 ≤ (sL "x[[]]").length
                ∧ sliceL (sL "x[[]]") 3 (3 + 2) = dblClose
            then 3 + 2 else 3)) ∧
        dblOpen.isPrefixOf (((sL "x[[]]").take 3).drop 1) = true ∧
        (∀ j, 1 < j →
          ¬ (dblOpen.isPrefixOf (((sL "x[[]]").take 3).drop j) = true))) :=
  ⟨by decide, by decide, by decide, by decide,
    c8_handler_span (sL "x[[]]") 0 3 [(sL "a.md", sL "A")] (sL "x[[]]") 3 1
      (by decide) (by decide) (by decide) (by decide)⟩

/-- C8 counterexample: for the main.rs Backend's `completion`, with document
`"[[]]"` and the cursor at (0,2) — where the two characters after the cursor
are `]]` — the returned item's replacement span is the empty span
(0,2)–(0,2), not the claimed (0,0)–(0,4) covering `[[` through `]]`. -/
theorem c8_main_empty_span_counterexample :
    main_completion (sL "[[]]") 0 2 [(sL "a.md", sL "A")]
      = some (some [⟨sL "A", (0, 2), (0, 2), sL "a.md | A"⟩]) ∧
      sliceL (sL "[[]]") 2 (2 + 2) = dblClose ∧
      ((0, 2) : Nat × Nat) ≠ ((0, 0) : Nat × Nat) ∧
      ((0, 2) : Nat × Nat) ≠ ((0, 4) : Nat × Nat) :=
  ⟨by rfl, by decide, by decide, by decide⟩

/-! ## Document cache updates (src/main.rs lines 68–73; identical logic in
src/server.rs lines 132–139)

```rust
async fn did_change(&self, params: DidChangeTextDocumentParams) {
    let uri = params.text_document.uri;
    if let Some(change) = params.content_changes.into_iter().next() {
        self.documents.lock().unwrap().insert(uri, change.text);
    }
}
```
The `HashMap<Url, String>` cache is modelled extensionally. -/

def DocMap : Type := String → Option String

/-- `HashMap::insert`. -/
def insertDoc (m : DocMap) (uri text : String) : DocMap :=
  fun u => if u = uri then some text else m u

/-- `did_change` from src/main.rs: replace the cached text with the text of
the first content change, if any. -/
def did_change (m : DocMap) (uri : String) (changes : List String) : DocMap :=
  match changes with
  | [] => m
  | t :: _ => insertDoc m uri t

/-- C10: an empty change list leaves the cache untouched (and inserts no
URI); a non-empty list stores exactly the first change's text under the URI,
leaves every other URI unchanged, and ignores all subsequent changes. -/
theorem c10_did_change_first_only (m : DocMap) (uri : String)
    (changes : List String) :
    (changes = [] → ∀ u, did_change m uri changes u = m u) ∧
      (∀ t rest, changes = t :: rest →
        (did_change m uri changes uri = some t ∧
          (∀ u, u ≠ uri → did_change m uri changes u = m u) ∧
          (∀ u, did_change m uri changes u = did_change m uri [t] u))) := by
  constructor
  · intro h u
    subst h
    rfl
  · intro t rest h
    subst h
    refine ⟨?_, ?_, ?_⟩
    · simp [did_change, insertDoc]
    · intro u hu
      simp [did_change, insertDoc, hu]
    · intro u
      rfl

/-- Witness for `c10_did_change_first_only`: two queued changes, only the
first lands. -/
theorem c10_did_change_first_only_witness :
    (("one" :: ["two"] : List String) = "one" :: ["two"]) ∧
      did_change (fun _ => none) "file:///a.md" ["one", "two"] "file:///a.md"
        = some "one" :=
  ⟨rfl,
    ((c10_did_change_first_only (fun _ => none) "file:///a.md"
      ["one", "two"]).2 "one" ["two"] rfl).1⟩

end NotemancyLsp
